import Mathlib

/-!
Verification of the sentence segmentation algorithm and the narration/highlight
coordinator of an e-book reader (source: `src/app/page.tsx`).

Strings are modelled as `List Char`.  JavaScript regular-expression behaviour is
embedded as executable Lean functions:
* `\s` (JS whitespace class) is `isJsSpace`;
* `text.replace(/\s+/g, ' ').trim()` is `normalize`;
* the global-exec loop over `/([.!?]+)\s+/g` is `findMatch` / `scanLoop`;
* `String.prototype.split(/\n+/)` is `splitOnNewlineRuns`;
* `String.prototype.indexOf(needle, from)` is `jsIndexOfFrom` (`-1` on failure,
  hence `Int`-valued offsets in `Sentence`).

The stateful React component is embedded as explicit state passing: the React
state cell (`sentences`, `isPlaying`, `currentSentenceIndex`, `error`) is
`CoordState`; the ambient speech-synthesis engine condition sampled by the
handlers (`'speechSynthesis' in window`, `speechSynthesis.speaking`,
`speechSynthesis.paused`) is `EngineStatus`; the engine calls a handler issues
(`pause`, `resume`, `cancel`, `speak`) are returned as a `List Cmd`.  The
`setTimeout(..., 100)` before re-issuing speech and the one-shot
`voiceschanged` deferral only delay the very same cancel-then-speak pair, so
both are modelled as the synchronously returned commands.
-/

/-- The JS `\s` character class (whitespace as matched by `/\s/`). -/
def isJsSpace (c : Char) : Bool :=
  c == ' ' || c == '\t' || c == '\n' || c == '\r' || c == '\x0b' || c == '\x0c' ||
  c == ' ' || c == ' ' || c == ' ' || c == ' ' || c == ' ' ||
  c == ' ' || c == ' ' || c == ' ' || c == ' ' || c == ' ' ||
  c == ' ' || c == ' ' || c == ' ' || c == ' ' || c == ' ' ||
  c == ' ' || c == ' ' || c == '　' || c == '﻿'

/-- Sentence-terminator characters: the JS character class `[.!?]`. -/
def isTerm (c : Char) : Bool :=
  c == '.' || c == '!' || c == '?'

/-- JS `String.prototype.trim()`: drop leading and trailing whitespace. -/
def jsTrim (l : List Char) : List Char :=
  ((l.dropWhile isJsSpace).reverse.dropWhile isJsSpace).reverse

/-- JS `text.replace(/\s+/g, ' ')`: each maximal whitespace run becomes one
space.  The flag records whether the previously scanned character was part of a
whitespace run. -/
def collapseAux : List Char → Bool → List Char
  | [], _ => []
  | c :: rest, prevSpace =>
    if isJsSpace c then
      if prevSpace then collapseAux rest true
      else ' ' :: collapseAux rest true
    else c :: collapseAux rest false

/-- `text.replace(/\s+/g, ' ').trim()` (line 35 of the source).  Called
`normalize` in the spec; that name is taken by the library. -/
def normalizeText (text : List Char) : List Char :=
  jsTrim (collapseAux text false)

/-- JS `Array.prototype.join(' ')` on a list of strings. -/
def joinWithSpaces : List (List Char) → List Char
  | [] => []
  | [t] => t
  | t :: r :: rest => t ++ ' ' :: joinWithSpaces (r :: rest)

/-- JS `String.prototype.substring(a, b)` for `a ≤ b`: characters `[a, b)`. -/
def listSubstring (l : List Char) (a b : Nat) : List Char :=
  (l.drop a).take (b - a)

/-- A segmented sentence (the `Sentence` interface, lines 6–10): text plus
half-open offsets into the normalized text.  Offsets are `Int` because JS
`indexOf` can yield `-1` in the line-break fallback. -/
structure Sentence where
  text : List Char
  startIndex : Int
  endIndex : Int
deriving DecidableEq, Repr

/-- Attempt to match the regex `([.!?]+)\s+` anchored at the head of `l`:
greedily take a nonempty terminator run, then a nonempty whitespace run.
Returns (terminator-run length, whitespace-run length). -/
def matchAt (l : List Char) : Option (Nat × Nat) :=
  let m := (l.takeWhile isTerm).length
  if m = 0 then none
  else
    let w := ((l.drop m).takeWhile isJsSpace).length
    if w = 0 then none else some (m, w)

/-- One `exec` of `/([.!?]+)\s+/g` on `l`: leftmost match position `p` together
with the two run lengths. -/
def findMatch : List Char → Option (Nat × Nat × Nat)
  | [] => none
  | c :: rest =>
    match matchAt (c :: rest) with
    | some (m, w) => some (0, m, w)
    | none =>
      match findMatch rest with
      | some (p, m, w) => some (p + 1, m, w)
      | none => none

/-- The `while ((match = sentenceEndings.exec(cleanedText)) !== null)` loop
(lines 48–58): collects the matched units and returns the final `lastIndex`.
`fuel` bounds the iteration count; every iteration advances `lastIndex` by at
least two, so `cleanedText.length + 1` fuel is always enough. -/
def scanLoop : Nat → List Char → Nat → List Sentence × Nat
  | 0, _, lastIndex => ([], lastIndex)
  | fuel + 1, cleanedText, lastIndex =>
    match findMatch (cleanedText.drop lastIndex) with
    | none => ([], lastIndex)
    | some (p, m, w) =>
      let matchIndex := lastIndex + p
      let termEnd := matchIndex + m
      let sentenceText := jsTrim (listSubstring cleanedText lastIndex termEnd)
      let rest := scanLoop fuel cleanedText (matchIndex + m + w)
      if sentenceText.length > 0 then
        (⟨sentenceText, (lastIndex : Int), (termEnd : Int)⟩ :: rest.1, rest.2)
      else rest

/-- JS `String.prototype.split(/\n+/)`: split on maximal runs of `'\n'`,
keeping empty pieces at the ends (JS split semantics). -/
def splitNlAux (l : List Char) (acc : List Char) : List (List Char) :=
  match l with
  | [] => [acc.reverse]
  | c :: rest =>
    if c = '\n' then
      acc.reverse :: splitNlAux (rest.dropWhile (fun d => d = '\n')) []
    else splitNlAux rest (c :: acc)
termination_by l.length
decreasing_by
  all_goals simp_all
  exact Nat.lt_succ_of_le (List.dropWhile_sublist _).length_le

def splitOnNewlineRuns (l : List Char) : List (List Char) :=
  splitNlAux l []

/-- First occurrence of `needle` in `hay` at a position `≥ start`. -/
def findOccurrence (hay needle : List Char) (start : Nat) : Option Nat :=
  ((List.range (hay.length + 1)).filter
    (fun n => decide (start ≤ n) && needle.isPrefixOf (hay.drop n))).head?

/-- JS `hay.indexOf(needle, position)`: clamp the start position, return the
first occurrence or `-1`. -/
def jsIndexOfFrom (hay needle : List Char) (position : Int) : Int :=
  let start := min position.toNat hay.length
  match findOccurrence hay needle start with
  | some n => (n : Int)
  | none => -1

/-- The `lines.forEach` body of the line-break fallback (lines 77–88): locate
each trimmed line by first-occurrence search from the previous line's end. -/
def linesLoop (cleanedText : List Char) : List (List Char) → Int → List Sentence
  | [], _ => []
  | line :: rest, currentIndex =>
    let trimmedLine := jsTrim line
    if trimmedLine.length > 0 then
      let startIndex := jsIndexOfFrom cleanedText trimmedLine currentIndex
      ⟨trimmedLine, startIndex, startIndex + trimmedLine.length⟩ ::
        linesLoop cleanedText rest (startIndex + trimmedLine.length)
    else linesLoop cleanedText rest currentIndex

/-- The `sentences.length === 0` fallback (lines 73–96): split on newline runs,
or make the whole normalized text a single unit. -/
def lineFallback (cleanedText : List Char) : List Sentence :=
  let lines := (splitOnNewlineRuns cleanedText).filter
    (fun line => (jsTrim line).length > 0)
  if lines.length > 1 then linesLoop cleanedText lines 0
  else [⟨cleanedText, 0, (cleanedText.length : Int)⟩]

/-- `splitIntoSentences` (lines 33–99): normalize, scan for terminator matches,
append the trailing residue unit, and fall back if nothing was produced. -/
def splitIntoSentences (text : List Char) : List Sentence :=
  let cleanedText := normalizeText text
  if cleanedText.length = 0 then []
  else
    let scanned := scanLoop (cleanedText.length + 1) cleanedText 0
    let lastIndex := scanned.2
    let tailUnit : List Sentence :=
      if lastIndex < cleanedText.length then
        let remainingText := jsTrim (cleanedText.drop lastIndex)
        if remainingText.length > 0 then
          [⟨remainingText, (lastIndex : Int), (cleanedText.length : Int)⟩]
        else []
      else []
    let sentences := scanned.1 ++ tailUnit
    if sentences.length = 0 then lineFallback cleanedText else sentences

/-- Playback state of the spec's state machine, derived from the component's
`isPlaying` / `currentSentenceIndex` pair. -/
inductive PlaybackState
  | idle
  | playing
  | paused
deriving DecidableEq, Repr

/-- Ambient speech-synthesis engine condition sampled by an event handler:
`'speechSynthesis' in window`, `speechSynthesis.speaking`,
`speechSynthesis.paused`. -/
structure EngineStatus where
  available : Bool
  speaking : Bool
  paused : Bool
deriving DecidableEq, Repr

/-- The component's React state relevant to playback (lines 14–18). -/
structure CoordState where
  sentences : List Sentence
  isPlaying : Bool
  currentSentenceIndex : Option Nat
  error : Option String
deriving DecidableEq, Repr

/-- Engine calls a handler issues, in order. -/
inductive Cmd
  | pause
  | resume
  | cancel
  | speak (startIndex : Nat) (text : List Char)
deriving DecidableEq, Repr

def Cmd.isSpeak : Cmd → Bool
  | .speak _ _ => true
  | _ => false

def playbackState (s : CoordState) : PlaybackState :=
  if s.isPlaying then .playing
  else if s.currentSentenceIndex.isSome then .paused
  else .idle

/-- `handlePlay` (lines 341–489).  Both the immediate and the
voices-pending branch issue the same cancel-then-speak pair. -/
def handlePlay (eng : EngineStatus) (s : CoordState) : CoordState × List Cmd :=
  if s.sentences.length = 0 then
    ({ s with error := some "Please upload and parse an EPUB file first" }, [])
  else if !s.isPlaying && eng.paused && s.currentSentenceIndex.isSome then
    ({ s with isPlaying := true }, [Cmd.resume])
  else if s.isPlaying then
    ({ s with isPlaying := false }, if eng.speaking then [Cmd.pause] else [])
  else if !eng.available then
    ({ s with error := some "Speech synthesis is not supported in this browser" }, [])
  else
    let startIndex := s.currentSentenceIndex.getD 0
    let textToRead := jsTrim (joinWithSpaces ((s.sentences.drop startIndex).map Sentence.text))
    if textToRead.length = 0 then (s, [])
    else (s, [Cmd.cancel, Cmd.speak startIndex textToRead])

/-- The restart path of `handleSentenceClick` (lines 510–643): cancel any
in-flight speech, clear the playback state, and (if there is text) issue a new
narration request after the short deliberate delay. -/
def clickRestart (eng : EngineStatus) (s : CoordState) (index : Nat) :
    CoordState × List Cmd :=
  let cancelCmds := if eng.speaking then [Cmd.cancel] else []
  let stopped := { s with isPlaying := false, currentSentenceIndex := none }
  let textToRead := jsTrim (joinWithSpaces ((s.sentences.drop index).map Sentence.text))
  if textToRead.length = 0 then (stopped, cancelCmds)
  else if !eng.available then
    ({ stopped with error := some "Speech synthesis is not supported in this browser" },
      cancelCmds)
  else (stopped, cancelCmds ++ [Cmd.cancel, Cmd.speak index textToRead])

/-- `handleSentenceClick` (lines 491–643), the coordinator's `seek`. -/
def handleSentenceClick (eng : EngineStatus) (s : CoordState) (index : Nat) :
    CoordState × List Cmd :=
  if s.isPlaying && s.currentSentenceIndex == some index then
    if eng.speaking && !eng.paused then
      ({ s with isPlaying := false }, [Cmd.pause])
    else if eng.paused then
      ({ s with isPlaying := true }, [Cmd.resume])
    else clickRestart eng s index
  else clickRestart eng s index

/-- `utterance.onend` (lines 424–427 and 577–580). -/
def utteranceOnEnd (s : CoordState) : CoordState :=
  { s with isPlaying := false, currentSentenceIndex := none }

/-- The cancellation test of the `onerror` handlers: `!event.error ||
event.error === 'canceled' || event.error === 'interrupted'` with the absent
code modelled as `none`. -/
def isCancellationCode (code : Option String) : Bool :=
  code.isNone || code == some "canceled" || code == some "interrupted"

/-- `utterance.onerror` (lines 429–465 and 582–618).  Returns the new state
together with the user-visible error notifications emitted (the `setError`
calls). -/
def utteranceOnError (code : Option String) (s : CoordState) :
    CoordState × List String :=
  if isCancellationCode code then
    ({ s with isPlaying := false, currentSentenceIndex := none }, [])
  else
    let msg := "Speech synthesis error: " ++ code.getD "Unknown error"
    ({ s with error := some msg, isPlaying := false, currentSentenceIndex := none }, [msg])

/-- The `sentenceStartIndices` precomputation (lines 390–395 and 544–550):
each unit of the narration suffix paired with its starting character offset in
the concatenated request text (running total of `text.length + 1`). -/
def buildTable : List Sentence → Nat → Nat → List (Nat × Nat)
  | [], _, _ => []
  | sent :: rest, index, charCount =>
    (index, charCount) :: buildTable rest (index + 1) (charCount + sent.text.length + 1)

def sentenceStartIndices (sentences : List Sentence) (startIndex : Nat) :
    List (Nat × Nat) :=
  buildTable (sentences.drop startIndex) startIndex 0

/-- The `onboundary` resolution loop (lines 403–417): scanning the offset table
from the end, the first (hence greatest) entry with `charStart ≤ charIndex`. -/
def resolveUnit : List (Nat × Nat) → Nat → Option Nat
  | [], _ => none
  | entry :: rest, charIndex =>
    match resolveUnit rest charIndex with
    | some i => some i
    | none => if entry.2 ≤ charIndex then some entry.1 else none

/-- `utterance.onboundary` (lines 397–422 and 552–575). -/
def utteranceOnBoundary (table : List (Nat × Nat)) (eventName : String)
    (charIndex : Nat) (s : CoordState) : CoordState :=
  if eventName == "word" || eventName == "sentence" then
    match resolveUnit table charIndex with
    | some i => { s with currentSentenceIndex := some i }
    | none => s
  else s

theorem joinWithSpaces_nil : joinWithSpaces [] = [] := rfl

theorem jsTrim_nil : jsTrim [] = [] := rfl

theorem resolveUnit_mem (off : Nat) :
    ∀ (t : List (Nat × Nat)) (i : Nat), resolveUnit t off = some i →
      i ∈ t.map Prod.fst := by
  intro t
  induction t with
  | nil => intro i h; simp [resolveUnit] at h
  | cons e rest ih =>
    intro i h
    simp only [resolveUnit] at h
    cases hr : resolveUnit rest off with
    | some j =>
      rw [hr] at h
      simp only [Option.some.injEq] at h
      subst h
      exact List.mem_cons_of_mem _ (ih j hr)
    | none =>
      rw [hr] at h
      by_cases hc : e.2 ≤ off
      · simp only [hc, if_true, Option.some.injEq] at h
        subst h
        exact List.mem_cons_self _ _
      · simp [hc] at h

theorem resolveUnit_mono_isSome (o1 o2 : Nat) (h12 : o1 ≤ o2) :
    ∀ t : List (Nat × Nat), (resolveUnit t o1).isSome →
      (resolveUnit t o2).isSome := by
  intro t
  induction t with
  | nil => simp [resolveUnit]
  | cons e rest ih =>
    intro h
    simp only [resolveUnit] at h ⊢
    cases hr : resolveUnit rest o1 with
    | some j =>
      have : (resolveUnit rest o2).isSome := by
        apply ih
        simp [hr]
      cases hs : resolveUnit rest o2 with
      | some k => simp
      | none => rw [hs] at this; simp at this
    | none =>
      rw [hr] at h
      by_cases hc : e.2 ≤ o1
      · cases hs : resolveUnit rest o2 with
        | some k => simp
        | none => simp [Nat.le_trans hc h12]
      · simp [hc] at h

theorem buildTable_fst_le :
    ∀ (l : List Sentence) (idx cc : Nat), ∀ e ∈ buildTable l idx cc, idx ≤ e.1 := by
  intro l
  induction l with
  | nil => intro idx cc e he; simp [buildTable] at he
  | cons s rest ih =>
    intro idx cc e he
    simp only [buildTable, List.mem_cons] at he
    rcases he with rfl | he
    · exact Nat.le_refl _
    · exact Nat.le_trans (Nat.le_succ _) (ih (idx + 1) _ e he)

theorem resolveUnit_buildTable_mono (o1 o2 : Nat) (h12 : o1 ≤ o2) :
    ∀ (l : List Sentence) (idx cc i1 i2 : Nat),
      resolveUnit (buildTable l idx cc) o1 = some i1 →
      resolveUnit (buildTable l idx cc) o2 = some i2 → i1 ≤ i2 := by
  intro l
  induction l with
  | nil => intro idx cc i1 i2 h1 h2; simp [buildTable, resolveUnit] at h1
  | cons s rest ih =>
    intro idx cc i1 i2 h1 h2
    simp only [buildTable, resolveUnit] at h1 h2
    cases hr1 : resolveUnit (buildTable rest (idx + 1) (cc + s.text.length + 1)) o1 with
    | some j1 =>
      rw [hr1] at h1
      simp only [Option.some.injEq] at h1
      subst h1
      have hsome : (resolveUnit (buildTable rest (idx + 1) (cc + s.text.length + 1)) o2).isSome := by
        apply resolveUnit_mono_isSome o1 o2 h12
        simp [hr1]
      cases hr2 : resolveUnit (buildTable rest (idx + 1) (cc + s.text.length + 1)) o2 with
      | some j2 =>
        rw [hr2] at h2
        simp only [Option.some.injEq] at h2
        subst h2
        exact ih (idx + 1) _ _ _ hr1 hr2
      | none => rw [hr2] at hsome; simp at hsome
    | none =>
      rw [hr1] at h1
      by_cases hc : cc ≤ o1
      · simp only [hc, if_true, Option.some.injEq] at h1
        subst h1
        cases hr2 : resolveUnit (buildTable rest (idx + 1) (cc + s.text.length + 1)) o2 with
        | some j2 =>
          rw [hr2] at h2
          simp only [Option.some.injEq] at h2
          subst h2
          have := buildTable_fst_le rest (idx + 1) (cc + s.text.length + 1)
          have hmem := resolveUnit_mem o2 _ _ hr2
          simp only [List.mem_map] at hmem
          obtain ⟨e, he, rfl⟩ := hmem
          exact Nat.le_trans (Nat.le_succ _) (this e he)
        | none =>
          rw [hr2] at h2
          simp only [Nat.le_trans hc h12, if_true, Option.some.injEq] at h2
          subst h2
          exact Nat.le_refl _
      · simp [hc] at h1

/-- C5: within one narration request, the unit index resolved from on-progress
character offsets (the greatest table entry with `charStart ≤ engineCharOffset`)
is monotonically non-decreasing in the offset. -/
theorem c5_resolution_monotone (sentences : List Sentence) (startIndex : Nat)
    (o1 o2 i1 i2 : Nat) (h12 : o1 ≤ o2)
    (h1 : resolveUnit (sentenceStartIndices sentences startIndex) o1 = some i1)
    (h2 : resolveUnit (sentenceStartIndices sentences startIndex) o2 = some i2) :
    i1 ≤ i2 :=
  resolveUnit_buildTable_mono o1 o2 h12 (sentences.drop startIndex) startIndex 0 i1 i2 h1 h2

theorem c5_resolution_monotone_witness :
    (0 : Nat) ≤ 10 ∧
    resolveUnit (sentenceStartIndices
      [⟨"Hi.".toList, 0, 3⟩, ⟨"Yo.".toList, 4, 7⟩] 0) 0 = some 0 ∧
    resolveUnit (sentenceStartIndices
      [⟨"Hi.".toList, 0, 3⟩, ⟨"Yo.".toList, 4, 7⟩] 0) 10 = some 1 ∧
    (0 : Nat) ≤ 1 :=
  ⟨by decide, by decide, by decide,
    c5_resolution_monotone [⟨"Hi.".toList, 0, 3⟩, ⟨"Yo.".toList, 4, 7⟩] 0 0 10 0 1
      (by decide) (by decide) (by decide)⟩

/-- C8: `segment("Hello world. This is a test! Is it working?")` returns
exactly three units with the expected texts (and offsets into the normalized
text). -/
theorem c8_three_sentences :
    splitIntoSentences "Hello world. This is a test! Is it working?".toList =
      [⟨"Hello world.".toList, 0, 12⟩,
       ⟨"This is a test!".toList, 13, 28⟩,
       ⟨"Is it working?".toList, 29, 43⟩] := by
  decide

/-- C1: evaluation of `segment` at the spec's line-break example.  The claim
says three units, one per line; the code normalizes all whitespace (including
newlines) to single spaces before the fallback ever runs, so it returns one
unit spanning the whole collapsed text.  The second conjunct records that the
normalized text retains no newline to split on. -/
theorem c1_linebreak_fallback_dead :
    splitIntoSentences "Line one\nLine two\nLine three".toList =
      [⟨"Line one Line two Line three".toList, 0, 28⟩] ∧
    '\n' ∉ normalizeText "Line one\nLine two\nLine three".toList := by
  decide

/-- C2 counterexample: an out-of-range seek is not a no-op.  With three units
absent and index 5 out of range for a one-unit document, while playing unit 0
with speech in flight, `handleSentenceClick` cancels the speech and clears the
playback state instead of leaving everything unchanged. -/
theorem c2_counterexample :
    (⟨[⟨['a'], 0, 1⟩], true, some 0, none⟩ : CoordState).sentences.length ≤ 5 ∧
    handleSentenceClick ⟨true, true, false⟩ ⟨[⟨['a'], 0, 1⟩], true, some 0, none⟩ 5 ≠
      (⟨[⟨['a'], 0, 1⟩], true, some 0, none⟩, []) := by
  decide

/-- C2 (amended): for an index `≥ len(units)` (indices are natural numbers in
this embedding) and a current index satisfying the documented validity
invariant, seek issues no new narration request — the sliced text is empty and
the handler returns early — but it is not a no-op: it cancels any in-flight
speech, clears the playing flag and clears `currentSentenceIndex`; the error
field is untouched. -/
theorem c2_out_of_range_seek (eng : EngineStatus) (s : CoordState) (index : Nat)
    (hlen : s.sentences.length ≤ index)
    (hidx : ∀ j, s.currentSentenceIndex = some j → j < s.sentences.length) :
    handleSentenceClick eng s index =
      ({ s with isPlaying := false, currentSentenceIndex := none },
        if eng.speaking then [Cmd.cancel] else []) := by
  have hne : s.currentSentenceIndex ≠ some index := by
    intro heq
    exact absurd (hidx index heq) (Nat.not_lt.mpr hlen)
  have hdrop : s.sentences.drop index = [] := List.drop_eq_nil_of_le hlen
  simp [handleSentenceClick, clickRestart, hne, hdrop, joinWithSpaces_nil, jsTrim_nil]

theorem c2_out_of_range_seek_witness :
    handleSentenceClick ⟨true, true, false⟩ ⟨[⟨['b'], 0, 1⟩], true, some 0, none⟩ 7 =
      (⟨[⟨['b'], 0, 1⟩], false, none, none⟩, [Cmd.cancel]) := by
  have h := c2_out_of_range_seek ⟨true, true, false⟩ ⟨[⟨['b'], 0, 1⟩], true, some 0, none⟩ 7
    (by decide) (by
      intro j hj
      have hj0 : j = 0 := by simpa using hj.symm
      subst hj0
      decide)
  simpa using h

/-- C3: seeking to the currently playing unit pauses in place: the state
becomes `Paused`, the index is preserved, and the only engine call is `pause`
— no new narration request is issued, so the engine's on-start callback cannot
fire again. -/
theorem c3_seek_same_index_pauses (eng : EngineStatus) (s : CoordState) (i : Nat)
    (hspeak : eng.speaking = true) (hpause : eng.paused = false)
    (hplay : s.isPlaying = true) (hidx : s.currentSentenceIndex = some i) :
    playbackState (handleSentenceClick eng s i).1 = PlaybackState.paused ∧
    (handleSentenceClick eng s i).1.currentSentenceIndex = some i ∧
    (handleSentenceClick eng s i).2 = [Cmd.pause] := by
  simp [handleSentenceClick, hspeak, hpause, hplay, hidx, playbackState]

theorem c3_seek_same_index_pauses_witness :
    playbackState (handleSentenceClick ⟨true, true, false⟩
      ⟨[⟨['c'], 0, 1⟩], true, some 0, none⟩ 0).1 = PlaybackState.paused ∧
    (handleSentenceClick ⟨true, true, false⟩
      ⟨[⟨['c'], 0, 1⟩], true, some 0, none⟩ 0).1.currentSentenceIndex = some 0 ∧
    (handleSentenceClick ⟨true, true, false⟩
      ⟨[⟨['c'], 0, 1⟩], true, some 0, none⟩ 0).2 = [Cmd.pause] :=
  c3_seek_same_index_pauses ⟨true, true, false⟩ ⟨[⟨['c'], 0, 1⟩], true, some 0, none⟩ 0
    rfl rfl rfl rfl

/-- C4: the on-error handler treats an absent, `"canceled"` or `"interrupted"`
code as cancellation and emits no error notification; any other code emits
exactly one notification carrying that code.  In both cases the state becomes
`Idle` with no current unit. -/
theorem c4_onerror_classification (code : Option String) (s : CoordState) :
    (utteranceOnError code s).1.isPlaying = false ∧
    (utteranceOnError code s).1.currentSentenceIndex = none ∧
    playbackState (utteranceOnError code s).1 = PlaybackState.idle ∧
    (utteranceOnError code s).2 =
      (if isCancellationCode code then []
       else ["Speech synthesis error: " ++ code.getD "Unknown error"]) := by
  by_cases hc : isCancellationCode code <;>
    simp [utteranceOnError, playbackState, hc]

/-- C9: after the engine's on-end callback the state is `Idle` with no current
unit, and a subsequent `play()` issues a fresh cancel-then-speak narration
request starting at unit index 0. -/
theorem c9_onend_then_play (eng : EngineStatus) (s : CoordState)
    (hne : s.sentences ≠ [])
    (havail : eng.available = true)
    (htext : (jsTrim (joinWithSpaces (s.sentences.map Sentence.text))).length ≠ 0) :
    playbackState (utteranceOnEnd s) = PlaybackState.idle ∧
    (utteranceOnEnd s).currentSentenceIndex = none ∧
    (handlePlay eng (utteranceOnEnd s)).2 =
      [Cmd.cancel, Cmd.speak 0 (jsTrim (joinWithSpaces (s.sentences.map Sentence.text)))] := by
  have hlen : s.sentences.length ≠ 0 := by
    simpa [List.length_eq_zero] using hne
  simp [handlePlay, utteranceOnEnd, playbackState, havail, htext, hlen]

theorem c9_onend_then_play_witness :
    playbackState (utteranceOnEnd ⟨[⟨['d'], 0, 1⟩], true, some 0, none⟩) = PlaybackState.idle ∧
    (utteranceOnEnd ⟨[⟨['d'], 0, 1⟩], true, some 0, none⟩).currentSentenceIndex = none ∧
    (handlePlay ⟨true, false, false⟩ (utteranceOnEnd ⟨[⟨['d'], 0, 1⟩], true, some 0, none⟩)).2 =
      [Cmd.cancel, Cmd.speak 0 (jsTrim (joinWithSpaces
        (([⟨['d'], 0, 1⟩] : List Sentence).map Sentence.text)))] :=
  c9_onend_then_play ⟨true, false, false⟩ ⟨[⟨['d'], 0, 1⟩], true, some 0, none⟩
    (by decide) rfl (by decide)

theorem head?_mem {α : Type} {l : List α} {h : α} (hh : l.head? = some h) : h ∈ l := by
  cases l with
  | nil => simp at hh
  | cons c rest =>
    simp only [List.head?_cons, Option.some.injEq] at hh
    subst hh
    exact List.mem_cons_self _ _

theorem getLast?_mem' {α : Type} {l : List α} {z : α} (hz : l.getLast? = some z) : z ∈ l := by
  have : l.reverse.head? = some z := by
    rw [List.head?_reverse]
    exact hz
  have := head?_mem this
  simpa using this

theorem dropWhile_head_not {p : Char → Bool} :
    ∀ {l : List Char} {h : Char}, (l.dropWhile p).head? = some h → p h = false := by
  intro l
  induction l with
  | nil => intro h hh; simp [List.dropWhile] at hh
  | cons c rest ih =>
    intro h hh
    rw [List.dropWhile_cons] at hh
    by_cases hc : p c
    · rw [if_pos hc] at hh
      exact ih hh
    · rw [if_neg hc] at hh
      simp only [List.head?_cons, Option.some.injEq] at hh
      subst hh
      simpa using hc

theorem dropWhile_eq_self_of_head {p : Char → Bool} {l : List Char}
    (hh : ∀ h, l.head? = some h → p h = false) : l.dropWhile p = l := by
  cases l with
  | nil => rfl
  | cons c rest =>
    rw [List.dropWhile_cons, if_neg]
    simp [hh c rfl]

theorem jsTrim_prefix_dropWhile (l : List Char) :
    jsTrim l <+: l.dropWhile isJsSpace := by
  unfold jsTrim
  have h := List.dropWhile_suffix (l := (l.dropWhile isJsSpace).reverse) isJsSpace
  have h2 := List.reverse_prefix.mpr h
  simpa using h2

theorem jsTrim_isInfix (l : List Char) : jsTrim l <:+: l :=
  (jsTrim_prefix_dropWhile l).isInfix.trans (List.dropWhile_suffix isJsSpace).isInfix

theorem mem_jsTrim {l : List Char} {c : Char} (hc : c ∈ jsTrim l) : c ∈ l :=
  (jsTrim_isInfix l).sublist.subset hc

theorem jsTrim_head_not {l : List Char} {h : Char}
    (hh : (jsTrim l).head? = some h) : isJsSpace h = false := by
  obtain ⟨t, ht⟩ := jsTrim_prefix_dropWhile l
  apply dropWhile_head_not (l := l) (p := isJsSpace)
  rw [← ht, List.head?_append, hh]
  rfl

theorem jsTrim_getLast_not {l : List Char} {z : Char}
    (hz : (jsTrim l).getLast? = some z) : isJsSpace z = false := by
  unfold jsTrim at hz
  rw [List.getLast?_reverse] at hz
  exact dropWhile_head_not hz

theorem jsTrim_eq_self {l : List Char}
    (hh : ∀ h, l.head? = some h → isJsSpace h = false)
    (hz : ∀ z, l.getLast? = some z → isJsSpace z = false) : jsTrim l = l := by
  unfold jsTrim
  rw [dropWhile_eq_self_of_head hh, dropWhile_eq_self_of_head, List.reverse_reverse]
  intro h hrev
  rw [List.head?_reverse] at hrev
  exact hz h hrev

theorem collapse_ws_only :
    ∀ (l : List Char) (b : Bool) (c : Char), c ∈ collapseAux l b →
      isJsSpace c = true → c = ' ' := by
  intro l
  induction l with
  | nil => intro b c hc; simp [collapseAux] at hc
  | cons a rest ih =>
    intro b c hc hsp
    by_cases ha : isJsSpace a
    · cases b with
      | true =>
        simp only [collapseAux, ha, if_true] at hc
        exact ih true c hc hsp
      | false =>
        simp only [collapseAux, ha, if_true, Bool.false_eq_true, if_false,
          List.mem_cons] at hc
        rcases hc with rfl | hc
        · rfl
        · exact ih true c hc hsp
    · simp only [collapseAux, ha, Bool.false_eq_true, if_false, List.mem_cons] at hc
      rcases hc with rfl | hc
      · exact absurd hsp (by simpa using ha)
      · exact ih false c hc hsp

theorem collapse_head_true :
    ∀ (l : List Char) (h : Char), (collapseAux l true).head? = some h →
      isJsSpace h = false := by
  intro l
  induction l with
  | nil => intro h hh; simp [collapseAux] at hh
  | cons a rest ih =>
    intro h hh
    by_cases ha : isJsSpace a
    · simp only [collapseAux, ha, if_true] at hh
      exact ih h hh
    · simp only [collapseAux, ha, Bool.false_eq_true, if_false,
        List.head?_cons, Option.some.injEq] at hh
      subst hh
      simpa using ha

theorem collapse_chain :
    ∀ (l : List Char) (b : Bool),
      List.Chain' (fun x y => isJsSpace x = true → isJsSpace y = false)
        (collapseAux l b) := by
  intro l
  induction l with
  | nil => intro b; simp [collapseAux]
  | cons a rest ih =>
    intro b
    by_cases ha : isJsSpace a
    · cases b with
      | true =>
        simpa only [collapseAux, ha, if_true] using ih true
      | false =>
        simp only [collapseAux, ha, if_true, Bool.false_eq_true, if_false]
        rw [List.chain'_cons']
        exact ⟨fun y hy _ => collapse_head_true rest y hy, ih true⟩
    · simp only [collapseAux, ha, Bool.false_eq_true, if_false]
      rw [List.chain'_cons']
      constructor
      · intro y _ hsp
        exact absurd hsp (by simpa using ha)
      · exact ih false

theorem collapse_fixed :
    ∀ l : List Char, (∀ c ∈ l, isJsSpace c = true → c = ' ') →
      List.Chain' (fun x y => isJsSpace x = true → isJsSpace y = false) l →
      ∀ b : Bool, (b = true → ∀ h, l.head? = some h → isJsSpace h = false) →
      collapseAux l b = l := by
  intro l
  induction l with
  | nil => intro _ _ b _; rfl
  | cons a rest ih =>
    intro hws hch b hb
    rw [List.chain'_cons'] at hch
    by_cases ha : isJsSpace a
    · cases b with
      | true =>
        exact absurd ha (by simp [hb rfl a rfl])
      | false =>
        have ha' : a = ' ' := hws a (List.mem_cons_self _ _) ha
        simp only [collapseAux, ha, if_true, Bool.false_eq_true, if_false]
        rw [ih (fun c hc => hws c (List.mem_cons_of_mem _ hc)) hch.2 true
          (fun _ h hh => hch.1 h hh ha), ha']
    · simp only [collapseAux, ha, Bool.false_eq_true, if_false]
      rw [ih (fun c hc => hws c (List.mem_cons_of_mem _ hc)) hch.2 false
        (by intro hfalse; cases hfalse)]

theorem normalizeText_ws_only {t : List Char} {c : Char}
    (hc : c ∈ normalizeText t) (hsp : isJsSpace c = true) : c = ' ' :=
  collapse_ws_only t false c (mem_jsTrim hc) hsp

theorem normalizeText_chain (t : List Char) :
    List.Chain' (fun x y => isJsSpace x = true → isJsSpace y = false)
      (normalizeText t) :=
  List.Chain'.prefix
    ((collapse_chain t false).suffix (List.dropWhile_suffix isJsSpace))
    (jsTrim_prefix_dropWhile _)

theorem normalizeText_head {t : List Char} {h : Char}
    (hh : (normalizeText t).head? = some h) : isJsSpace h = false :=
  jsTrim_head_not hh

theorem normalizeText_getLast {t : List Char} {z : Char}
    (hz : (normalizeText t).getLast? = some z) : isJsSpace z = false :=
  jsTrim_getLast_not hz

theorem normalizeText_idem (t : List Char) :
    normalizeText (normalizeText t) = normalizeText t := by
  show jsTrim (collapseAux (normalizeText t) false) = normalizeText t
  rw [collapse_fixed (normalizeText t)
    (fun c hc => normalizeText_ws_only hc)
    (normalizeText_chain t) false (by intro hfalse; cases hfalse)]
  exact jsTrim_eq_self (fun h hh => normalizeText_head hh)
    (fun z hz => normalizeText_getLast hz)

theorem matchAt_eq_some {l : List Char} {m w : Nat} (h : matchAt l = some (m, w)) :
    m = (l.takeWhile isTerm).length ∧
    w = ((l.drop m).takeWhile isJsSpace).length ∧ 0 < m ∧ 0 < w := by
  unfold matchAt at h
  by_cases hm : (l.takeWhile isTerm).length = 0
  · simp [hm] at h
  · simp only [hm, if_false] at h
    by_cases hw : ((l.drop (l.takeWhile isTerm).length).takeWhile isJsSpace).length = 0
    · simp [hw] at h
    · simp only [hw, if_false, Option.some.injEq, Prod.mk.injEq] at h
      obtain ⟨rfl, rfl⟩ := h
      exact ⟨rfl, rfl, Nat.pos_of_ne_zero hm, Nat.pos_of_ne_zero hw⟩

theorem findMatch_some :
    ∀ {l : List Char} {p m w : Nat}, findMatch l = some (p, m, w) →
      matchAt (l.drop p) = some (m, w) ∧ p < l.length := by
  intro l
  induction l with
  | nil => intro p m w h; simp [findMatch] at h
  | cons c rest ih =>
    intro p m w h
    unfold findMatch at h
    cases hma : matchAt (c :: rest) with
    | some mw =>
      obtain ⟨m', w'⟩ := mw
      rw [hma] at h
      simp only [Option.some.injEq, Prod.mk.injEq] at h
      obtain ⟨rfl, rfl, rfl⟩ := h
      exact ⟨by simpa using hma, Nat.succ_pos _⟩
    | none =>
      rw [hma] at h
      cases hfm : findMatch rest with
      | some pmw =>
        obtain ⟨p', m', w'⟩ := pmw
        rw [hfm] at h
        simp only [Option.some.injEq, Prod.mk.injEq] at h
        obtain ⟨rfl, rfl, rfl⟩ := h
        have hih := ih hfm
        constructor
        · rw [List.drop_succ_cons]
          exact hih.1
        · simpa using Nat.succ_lt_succ hih.2
      | none => rw [hfm] at h; cases h

theorem takeWhile_length_pos {p : Char → Bool} {l : List Char}
    (h : 0 < (l.takeWhile p).length) :
    ∃ c, l.head? = some c ∧ p c = true := by
  cases l with
  | nil => simp at h
  | cons a rest =>
    rw [List.takeWhile_cons] at h
    by_cases ha : p a
    · exact ⟨a, rfl, ha⟩
    · simp [ha] at h

theorem take_head? {l : List Char} {n : Nat} (hn : 0 < n) :
    (l.take n).head? = l.head? := by
  cases l with
  | nil => simp
  | cons a rest =>
    cases n with
    | zero => omega
    | succ k => simp

theorem isTerm_not_space {c : Char} (h : isTerm c = true) : isJsSpace c = false := by
  unfold isTerm at h
  simp only [Bool.or_eq_true, beq_iff_eq] at h
  rcases h with (rfl | rfl) | rfl <;> decide

theorem ws_run_le_one {l : List Char}
    (hch : List.Chain' (fun x y => isJsSpace x = true → isJsSpace y = false) l) :
    (l.takeWhile isJsSpace).length ≤ 1 := by
  cases l with
  | nil => simp
  | cons a rest =>
    rw [List.takeWhile_cons]
    by_cases ha : isJsSpace a
    · rw [if_pos ha]
      cases rest with
      | nil => simp
      | cons b rest' =>
        rw [List.chain'_cons] at hch
        have hb : isJsSpace b = false := hch.1 ha
        rw [List.takeWhile_cons, if_neg (by simp [hb])]
        simp
    · rw [if_neg ha]
      simp

theorem getLast?_drop_of_ne_nil {l : List Char} {k : Nat} (h : l.drop k ≠ []) :
    (l.drop k).getLast? = l.getLast? := by
  conv_rhs => rw [← List.take_append_drop k l]
  rw [List.getLast?_append]
  cases hl : (l.drop k).getLast? with
  | some z => rfl
  | none =>
    have := List.getLast?_isSome.mpr h
    rw [hl] at this
    simp at this

theorem step_structure (c : List Char)
    (hws : ∀ a ∈ c, isJsSpace a = true → a = ' ')
    (hch : List.Chain' (fun x y => isJsSpace x = true → isJsSpace y = false) c)
    (hlast : ∀ z, c.getLast? = some z → isJsSpace z = false)
    (i p m w : Nat)
    (hfm : findMatch (c.drop i) = some (p, m, w))
    (hhead : ∀ h, (c.drop i).head? = some h → isJsSpace h = false) :
    w = 1 ∧ 0 < m ∧ i + p + m + 1 < c.length ∧
    (listSubstring c i (i + p + m)).length = p + m ∧
    jsTrim (listSubstring c i (i + p + m)) = listSubstring c i (i + p + m) ∧
    c.drop i = listSubstring c i (i + p + m) ++ ' ' :: c.drop (i + p + m + 1) ∧
    (∀ h, (c.drop (i + p + m + 1)).head? = some h → isJsSpace h = false) := by
  obtain ⟨hma, hp⟩ := findMatch_some hfm
  rw [List.drop_drop] at hma
  obtain ⟨hm_eq, hw_eq, hm_pos, hw_pos⟩ := matchAt_eq_some hma
  have hdrop2 : (c.drop (i + p)).drop m = c.drop (i + p + m) := List.drop_drop m (i + p) c
  rw [hdrop2] at hw_eq
  have hch2 : List.Chain' (fun x y => isJsSpace x = true → isJsSpace y = false)
      (c.drop (i + p + m)) := hch.suffix (List.drop_suffix _ _)
  have hw1 : w = 1 := by
    have hle := ws_run_le_one hch2
    omega
  have hpos3 : 0 < ((c.drop (i + p + m)).takeWhile isJsSpace).length := by omega
  obtain ⟨sp, hsp_head, hsp_ws⟩ := takeWhile_length_pos hpos3
  have hsp_mem : sp ∈ c := (List.drop_suffix _ _).sublist.subset (head?_mem hsp_head)
  have hsp_eq : sp = ' ' := hws sp hsp_mem hsp_ws
  subst hsp_eq
  have hne3 : c.drop (i + p + m) ≠ [] := by
    intro h0
    rw [h0] at hsp_head
    cases hsp_head
  have hlt3 : i + p + m < c.length := by
    by_contra hge
    exact hne3 (List.drop_eq_nil_of_le (Nat.le_of_not_lt hge))
  have hdec : c.drop (i + p + m) = ' ' :: c.drop (i + p + m + 1) := by
    have htail : c.drop (i + p + m + 1) = List.drop 1 (c.drop (i + p + m)) := by
      rw [List.drop_drop]
    cases hq : c.drop (i + p + m) with
    | nil => exact absurd hq hne3
    | cons x xs =>
      rw [hq] at hsp_head htail
      simp only [List.head?_cons, Option.some.injEq] at hsp_head
      simp only [List.drop_succ_cons, List.drop_zero] at htail
      rw [htail, hsp_head]
  have hne4 : c.drop (i + p + m + 1) ≠ [] := by
    intro h0
    have hgl : c.getLast? = some ' ' := by
      rw [← getLast?_drop_of_ne_nil hne3, hdec, h0]
      rfl
    have := hlast ' ' hgl
    exact absurd this (by decide)
  have hlt4 : i + p + m + 1 < c.length := by
    by_contra hge
    exact hne4 (List.drop_eq_nil_of_le (Nat.le_of_not_lt hge))
  have hG : ∀ h, (c.drop (i + p + m + 1)).head? = some h → isJsSpace h = false := by
    intro h hh
    have hch3 := hch.suffix (List.drop_suffix (i + p + m) c)
    rw [hdec, List.chain'_cons'] at hch3
    exact hch3.1 h hh (by decide)
  have hsub : listSubstring c i (i + p + m) = (c.drop i).take (p + m) := by
    unfold listSubstring
    congr 1
    omega
  have hD : (listSubstring c i (i + p + m)).length = p + m := by
    rw [hsub, List.length_take, List.length_drop]
    exact inf_eq_left.mpr (by omega)
  have hF : c.drop i = listSubstring c i (i + p + m) ++ ' ' :: c.drop (i + p + m + 1) := by
    rw [hsub]
    conv_lhs => rw [← List.take_append_drop (p + m) (c.drop i)]
    congr 1
    rw [List.drop_drop, ← hdec]
    congr 1
    omega
  have hhead_ut : ∀ h, ((c.drop i).take (p + m)).head? = some h → isJsSpace h = false := by
    intro h hh
    rw [take_head? (by omega)] at hh
    exact hhead h hh
  have htw : (c.drop (i + p)).take m = (c.drop (i + p)).takeWhile isTerm := by
    have hpre := List.takeWhile_prefix (l := c.drop (i + p)) isTerm
    have heq := List.prefix_iff_eq_take.mp hpre
    rw [heq, ← hm_eq]
  have hne_tm : (c.drop (i + p)).take m ≠ [] := by
    intro h0
    have hlen := congrArg List.length h0
    rw [List.length_take, List.length_drop] at hlen
    simp only [List.length_nil] at hlen
    have : m ⊓ (c.length - (i + p)) = 0 := hlen
    have hle : m ≤ (c.length - (i + p)) ∨ (c.length - (i + p)) ≤ m := Nat.le_total _ _
    rcases hle with hle | hle
    · rw [inf_eq_left.mpr hle] at this
      omega
    · rw [inf_eq_right.mpr hle] at this
      omega
  have hlast_ut : ∀ z, ((c.drop i).take (p + m)).getLast? = some z →
      isJsSpace z = false := by
    intro z hz
    rw [List.take_add, List.drop_drop, List.getLast?_append] at hz
    cases htm : ((c.drop (i + p)).take m).getLast? with
    | none =>
      have hsome := List.getLast?_isSome.mpr hne_tm
      rw [htm] at hsome
      simp at hsome
    | some z' =>
      rw [htm] at hz
      have hz' : z' = z := by
        have hor : (some z').or ((c.drop i).take p).getLast? = some z' := rfl
        rw [hor] at hz
        injection hz
      subst hz'
      have hmem := getLast?_mem' htm
      rw [htw] at hmem
      exact isTerm_not_space (List.mem_takeWhile_imp hmem)
  have hC : jsTrim (listSubstring c i (i + p + m)) = listSubstring c i (i + p + m) := by
    rw [hsub]
    exact jsTrim_eq_self hhead_ut hlast_ut
  exact ⟨hw1, hm_pos, hlt4, hD, hC, hF, hG⟩

theorem scanLoop_spec (c : List Char)
    (hws : ∀ a ∈ c, isJsSpace a = true → a = ' ')
    (hch : List.Chain' (fun x y => isJsSpace x = true → isJsSpace y = false) c)
    (hlast : ∀ z, c.getLast? = some z → isJsSpace z = false) :
    ∀ (fuel i : Nat), c.length - i < fuel → i < c.length →
      (∀ h, (c.drop i).head? = some h → isJsSpace h = false) →
      i ≤ (scanLoop fuel c i).2 ∧ (scanLoop fuel c i).2 < c.length ∧
      (∀ h, (c.drop (scanLoop fuel c i).2).head? = some h → isJsSpace h = false) ∧
      c.drop i = ((scanLoop fuel c i).1.map Sentence.text).foldr
          (fun t acc => t ++ ' ' :: acc) (c.drop (scanLoop fuel c i).2) ∧
      (∀ u ∈ (scanLoop fuel c i).1, ∃ a b : Nat,
          u.startIndex = (a : Int) ∧ u.endIndex = (b : Int) ∧
          i ≤ a ∧ a < b ∧ b < (scanLoop fuel c i).2 ∧
          u.text = listSubstring c a b ∧ u.text.length = b - a ∧
          jsTrim u.text = u.text) ∧
      List.Chain' (fun u v => u.startIndex ≤ v.startIndex ∧ u.endIndex < v.startIndex)
        (scanLoop fuel c i).1 := by
  intro fuel
  induction fuel with
  | zero => intro i h0; omega
  | succ f ih =>
    intro i hfuel hi hhead
    cases hfm : findMatch (c.drop i) with
    | none =>
      have hres : scanLoop (f + 1) c i = ([], i) := by
        simp [scanLoop, hfm]
      rw [hres]
      refine ⟨Nat.le_refl _, hi, hhead, by simp, by simp, by simp⟩
    | some pmw =>
      obtain ⟨p, m, w⟩ := pmw
      obtain ⟨hw1, hm_pos, hlt4, hD, hC, hF, hG⟩ :=
        step_structure c hws hch hlast i p m w hfm hhead
      subst hw1
      have hres : scanLoop (f + 1) c i =
          (⟨listSubstring c i (i + p + m), (i : Int), ((i + p + m : Nat) : Int)⟩ ::
            (scanLoop f c (i + p + m + 1)).1, (scanLoop f c (i + p + m + 1)).2) := by
        simp only [scanLoop, hfm]
        rw [hC, hD, if_pos (by omega : (0 : Nat) < p + m)]
      obtain ⟨h1, h2, h3, h4, h5, h6⟩ := ih (i + p + m + 1) (by omega) (by omega) hG
      rw [hres]
      refine ⟨by omega, h2, h3, ?_, ?_, ?_⟩
      · simp only [List.map_cons, List.foldr_cons]
        rw [← h4]
        exact hF
      · intro u hu
        rcases List.mem_cons.mp hu with rfl | hu
        · exact ⟨i, i + p + m, rfl, rfl, Nat.le_refl _, by omega, by omega, rfl,
            by rw [hD]; omega, hC⟩
        · obtain ⟨a, b, ha, hb, hia, hab, hbr, htext, hlen, htrim⟩ := h5 u hu
          exact ⟨a, b, ha, hb, by omega, hab, hbr, htext, hlen, htrim⟩
      · rw [List.chain'_cons']
        refine ⟨?_, h6⟩
        intro v hv
        obtain ⟨a, b, ha, hb, hia, hab, hbr, htext, hlen, htrim⟩ :=
          h5 v (head?_mem hv)
        constructor
        · show (i : Int) ≤ v.startIndex
          rw [ha]
          exact_mod_cast by omega
        · show ((i + p + m : Nat) : Int) < v.startIndex
          rw [ha]
          exact_mod_cast by omega

theorem splitIntoSentences_eq (t : List Char) (hne : normalizeText t ≠ []) :
    splitIntoSentences t =
      (scanLoop ((normalizeText t).length + 1) (normalizeText t) 0).1 ++
        [⟨(normalizeText t).drop
            (scanLoop ((normalizeText t).length + 1) (normalizeText t) 0).2,
          ((scanLoop ((normalizeText t).length + 1) (normalizeText t) 0).2 : Int),
          ((normalizeText t).length : Int)⟩] := by
  have hpos : 0 < (normalizeText t).length := List.length_pos.mpr hne
  obtain ⟨h1, h2, h3, h4, h5, h6⟩ :=
    scanLoop_spec (normalizeText t)
      (fun a ha hsp => normalizeText_ws_only ha hsp)
      (normalizeText_chain t)
      (fun z hz => normalizeText_getLast hz)
      ((normalizeText t).length + 1) 0 (by omega) hpos
      (by
        intro h hh
        rw [List.drop_zero] at hh
        exact normalizeText_head hh)
  have hdropne : (normalizeText t).drop
      (scanLoop ((normalizeText t).length + 1) (normalizeText t) 0).2 ≠ [] := by
    rw [ne_eq, List.drop_eq_nil_iff]
    omega
  have htrimtail : jsTrim ((normalizeText t).drop
      (scanLoop ((normalizeText t).length + 1) (normalizeText t) 0).2) =
      (normalizeText t).drop
        (scanLoop ((normalizeText t).length + 1) (normalizeText t) 0).2 :=
    jsTrim_eq_self h3
      (fun z hz => normalizeText_getLast (by rwa [getLast?_drop_of_ne_nil hdropne] at hz))
  have htaillen : 0 < (jsTrim ((normalizeText t).drop
      (scanLoop ((normalizeText t).length + 1) (normalizeText t) 0).2)).length := by
    rw [htrimtail, List.length_drop]
    omega
  simp only [splitIntoSentences]
  rw [if_neg (by omega), if_pos h2, if_pos htaillen, htrimtail, if_neg (by simp)]

theorem segmentation_package (t : List Char) (hne : normalizeText t ≠ []) :
    ∃ us : List Sentence, ∃ last : Nat,
      last < (normalizeText t).length ∧
      normalizeText t = (us.map Sentence.text).foldr
        (fun x acc => x ++ ' ' :: acc) ((normalizeText t).drop last) ∧
      (∀ u ∈ us, ∃ a b : Nat,
        u.startIndex = (a : Int) ∧ u.endIndex = (b : Int) ∧
        a < b ∧ b < last ∧ u.text = listSubstring (normalizeText t) a b ∧
        u.text.length = b - a ∧ jsTrim u.text = u.text) ∧
      List.Chain' (fun u v => u.startIndex ≤ v.startIndex ∧ u.endIndex < v.startIndex) us ∧
      jsTrim ((normalizeText t).drop last) = (normalizeText t).drop last ∧
      (normalizeText t).drop last ≠ [] ∧
      splitIntoSentences t =
        us ++ [⟨(normalizeText t).drop last, (last : Int),
          ((normalizeText t).length : Int)⟩] := by
  have hpos : 0 < (normalizeText t).length := List.length_pos.mpr hne
  obtain ⟨h1, h2, h3, h4, h5, h6⟩ :=
    scanLoop_spec (normalizeText t)
      (fun a ha hsp => normalizeText_ws_only ha hsp)
      (normalizeText_chain t)
      (fun z hz => normalizeText_getLast hz)
      ((normalizeText t).length + 1) 0 (by omega) hpos
      (by
        intro h hh
        rw [List.drop_zero] at hh
        exact normalizeText_head hh)
  have hdropne : (normalizeText t).drop
      (scanLoop ((normalizeText t).length + 1) (normalizeText t) 0).2 ≠ [] := by
    rw [ne_eq, List.drop_eq_nil_iff]
    omega
  have htrimtail : jsTrim ((normalizeText t).drop
      (scanLoop ((normalizeText t).length + 1) (normalizeText t) 0).2) =
      (normalizeText t).drop
        (scanLoop ((normalizeText t).length + 1) (normalizeText t) 0).2 :=
    jsTrim_eq_self h3
      (fun z hz => normalizeText_getLast (by rwa [getLast?_drop_of_ne_nil hdropne] at hz))
  refine ⟨(scanLoop ((normalizeText t).length + 1) (normalizeText t) 0).1,
    (scanLoop ((normalizeText t).length + 1) (normalizeText t) 0).2,
    h2, ?_, ?_, h6, htrimtail, hdropne, splitIntoSentences_eq t hne⟩
  · rw [← h4, List.drop_zero]
  · intro u hu
    obtain ⟨a, b, ha, hb, _, hab, hbr, htext, hlen, htrim⟩ := h5 u hu
    exact ⟨a, b, ha, hb, hab, hbr, htext, hlen, htrim⟩

theorem join_foldr (tl : List Char) :
    ∀ ts : List (List Char), joinWithSpaces (ts ++ [tl]) =
      ts.foldr (fun x acc => x ++ ' ' :: acc) tl := by
  intro ts
  induction ts with
  | nil => rfl
  | cons a rest ih =>
    cases rest with
    | nil => rfl
    | cons b rest' =>
      calc joinWithSpaces ((a :: b :: rest') ++ [tl])
          = a ++ ' ' :: joinWithSpaces ((b :: rest') ++ [tl]) := rfl
        _ = a ++ ' ' :: (b :: rest').foldr (fun x acc => x ++ ' ' :: acc) tl := by
            rw [ih]
        _ = (a :: b :: rest').foldr (fun x acc => x ++ ' ' :: acc) tl := rfl

theorem splitIntoSentences_of_empty {t : List Char} (hne : normalizeText t = []) :
    splitIntoSentences t = [] := by
  simp only [splitIntoSentences]
  rw [if_pos]
  rw [hne]
  rfl

/-- C6: re-joining the unit texts with single spaces reproduces the normalized
input exactly (for every input whose normalization is non-empty), and
normalization is idempotent. -/
theorem c6_join_and_idempotent :
    (∀ t : List Char, normalizeText t ≠ [] →
      joinWithSpaces ((splitIntoSentences t).map Sentence.text) = normalizeText t) ∧
    (∀ s : List Char, normalizeText (normalizeText s) = normalizeText s) := by
  constructor
  · intro t hne
    obtain ⟨us, last, hlt, hfold, hunits, hchain, htrim, hdropne, heq⟩ :=
      segmentation_package t hne
    rw [heq, List.map_append]
    show joinWithSpaces (us.map Sentence.text ++ [(normalizeText t).drop last]) = _
    rw [join_foldr]
    exact hfold.symm
  · exact normalizeText_idem

theorem c6_join_and_idempotent_witness :
    joinWithSpaces ((splitIntoSentences "a. b".toList).map Sentence.text) =
      normalizeText "a. b".toList ∧
    normalizeText (normalizeText "x  y".toList) = normalizeText "x  y".toList :=
  ⟨c6_join_and_idempotent.1 "a. b".toList (by decide),
    c6_join_and_idempotent.2 "x  y".toList⟩

/-- C7: for every input string, `segment` returns units whose start offsets are
non-decreasing, whose half-open offset intervals are non-overlapping (each
unit's end is at most the next unit's start), and none of whose texts is empty
after trimming. -/
theorem c7_units_ordered (t : List Char) :
    List.Chain' (fun u v => u.startIndex ≤ v.startIndex) (splitIntoSentences t) ∧
    List.Chain' (fun u v => u.endIndex ≤ v.startIndex) (splitIntoSentences t) ∧
    ∀ u ∈ splitIntoSentences t, u.startIndex ≤ u.endIndex ∧ jsTrim u.text ≠ [] := by
  by_cases hne : normalizeText t = []
  · rw [splitIntoSentences_of_empty hne]
    simp
  · obtain ⟨us, last, hlt, hfold, hunits, hchain, htrim, hdropne, heq⟩ :=
      segmentation_package t hne
    rw [heq]
    have hstrong : List.Chain'
        (fun u v => u.startIndex ≤ v.startIndex ∧ u.endIndex < v.startIndex)
        (us ++ [⟨(normalizeText t).drop last, (last : Int),
          ((normalizeText t).length : Int)⟩]) := by
      rw [List.chain'_append]
      refine ⟨hchain, by simp, ?_⟩
      intro x hx y hy
      simp only [List.head?_cons, Option.mem_def, Option.some.injEq] at hy
      subst hy
      obtain ⟨a, b, ha, hb, hab, hbr, _, _, _⟩ :=
        hunits x (getLast?_mem' (Option.mem_def.mp hx))
      constructor
      · show x.startIndex ≤ (last : Int)
        rw [ha]
        exact_mod_cast by omega
      · show x.endIndex < (last : Int)
        rw [hb]
        exact_mod_cast hbr
    refine ⟨hstrong.imp (fun a b h => h.1),
      hstrong.imp (fun a b h => le_of_lt h.2), ?_⟩
    intro u hu
    rcases List.mem_append.mp hu with hu | hu
    · obtain ⟨a, b, ha, hb, hab, hbr, htext, hlen, htrimu⟩ := hunits u hu
      constructor
      · rw [ha, hb]
        exact_mod_cast le_of_lt hab
      · rw [htrimu]
        intro h0
        rw [h0] at hlen
        simp only [List.length_nil] at hlen
        omega
    · simp only [List.mem_singleton] at hu
      subst hu
      constructor
      · show (last : Int) ≤ ((normalizeText t).length : Int)
        exact_mod_cast le_of_lt hlt
      · show jsTrim ((normalizeText t).drop last) ≠ []
        rw [htrim]
        exact hdropne

theorem c7_units_ordered_witness :
    (⟨"a.".toList, 0, 2⟩ : Sentence) ∈ splitIntoSentences "a. b".toList ∧
    ((⟨"a.".toList, 0, 2⟩ : Sentence).startIndex ≤
        (⟨"a.".toList, 0, 2⟩ : Sentence).endIndex ∧
      jsTrim (⟨"a.".toList, 0, 2⟩ : Sentence).text ≠ []) :=
  ⟨by decide, (c7_units_ordered "a. b".toList).2.2 _ (by decide)⟩

/-- C10: every unit's recorded half-open offsets exactly delimit its text in
the normalized source: the text equals the substring of the normalized input at
`[startIndex, endIndex)` and `endIndex - startIndex` equals the text length. -/
theorem c10_offsets_delimit (t : List Char) (u : Sentence)
    (hu : u ∈ splitIntoSentences t) :
    0 ≤ u.startIndex ∧ u.startIndex ≤ u.endIndex ∧
    u.text = listSubstring (normalizeText t) u.startIndex.toNat u.endIndex.toNat ∧
    u.endIndex - u.startIndex = (u.text.length : Int) := by
  by_cases hne : normalizeText t = []
  · rw [splitIntoSentences_of_empty hne] at hu
    cases hu
  · obtain ⟨us, last, hlt, hfold, hunits, hchain, htrim, hdropne, heq⟩ :=
      segmentation_package t hne
    rw [heq] at hu
    rcases List.mem_append.mp hu with hu | hu
    · obtain ⟨a, b, ha, hb, hab, hbr, htext, hlen, _⟩ := hunits u hu
      refine ⟨by rw [ha]; exact_mod_cast Nat.zero_le a, ?_, ?_, ?_⟩
      · rw [ha, hb]
        exact_mod_cast le_of_lt hab
      · rw [ha, hb, Int.toNat_natCast, Int.toNat_natCast]
        exact htext
      · rw [ha, hb, hlen]
        omega
    · simp only [List.mem_singleton] at hu
      subst hu
      have hsub : listSubstring (normalizeText t) last (normalizeText t).length =
          (normalizeText t).drop last := by
        unfold listSubstring
        rw [← List.length_drop]
        exact List.take_length _
      refine ⟨?_, ?_, ?_, ?_⟩
      · show (0 : Int) ≤ (last : Int)
        exact_mod_cast Nat.zero_le last
      · show (last : Int) ≤ ((normalizeText t).length : Int)
        exact_mod_cast le_of_lt hlt
      · show (normalizeText t).drop last =
          listSubstring (normalizeText t) ((last : Int)).toNat
            (((normalizeText t).length : Int)).toNat
        rw [Int.toNat_natCast, Int.toNat_natCast, hsub]
      · show ((normalizeText t).length : Int) - (last : Int) =
          (((normalizeText t).drop last).length : Int)
        rw [List.length_drop]
        omega

theorem c10_offsets_delimit_witness :
    0 ≤ (⟨"b".toList, 3, 4⟩ : Sentence).startIndex ∧
    (⟨"b".toList, 3, 4⟩ : Sentence).startIndex ≤
      (⟨"b".toList, 3, 4⟩ : Sentence).endIndex ∧
    (⟨"b".toList, 3, 4⟩ : Sentence).text =
      listSubstring (normalizeText "a. b".toList)
        (⟨"b".toList, 3, 4⟩ : Sentence).startIndex.toNat
        (⟨"b".toList, 3, 4⟩ : Sentence).endIndex.toNat ∧
    (⟨"b".toList, 3, 4⟩ : Sentence).endIndex -
        (⟨"b".toList, 3, 4⟩ : Sentence).startIndex =
      ((⟨"b".toList, 3, 4⟩ : Sentence).text.length : Int) :=
  c10_offsets_delimit "a. b".toList ⟨"b".toList, 3, 4⟩ (by decide)
